import Mathlib

/-!
Verification development for the Sanskrit tokeniser repository
(`python experiment/Sanskrit_tokeniser.py`, plus the GUI variant
`python experiment/.venv/Sanskrit_tokeniser.py`).

Python strings are modelled as `List Char` (ordered sequences of Unicode
code points).  Pure functions become Lean functions; fallible code (code
that can raise, here only `IndexError` from `L[-1]` / `R[0]` on an empty
fragment) returns `Option`.  Library calls into `unicodedata` are modelled
by explicit tables of Unicode Character Database facts covering the Latin /
IAST repertoire this program targets; characters outside the modelled
repertoire behave as characters with no decomposition and combining class 0,
which is the correct UCD data for every character this development
evaluates.  The two scanner loops are modelled with a fuel argument equal to
the input length; each loop iteration consumes at least one code point and
fuel decreases by exactly one, so the fuel never runs out on the initial
call (the zero-fuel case is unreachable; this is proved as the scanner
progress property below).
-/

/-! ## Python character classes -/

/-- Characters for which Python `str.isspace()` returns `True`
(Unicode whitespace: bidirectional classes WS/B/S and category Zs). -/
def pyWhitespace : List Char :=
  ['\t', '\n', '\x0b', '\x0c', '\r', '\x1c', '\x1d', '\x1e', '\x1f', ' ',
   '\x85', '\xa0', ' ', ' ', ' ', ' ', ' ',
   ' ', ' ', ' ', ' ', ' ', ' ', ' ',
   ' ', ' ', ' ', ' ', '　']

/-- Model of Python `str.isspace()` on a single code point. -/
def pyIsSpace (c : Char) : Bool := pyWhitespace.contains c

/-- ASCII letter, the `A-Za-z` part of the word-character classes. -/
def isAsciiLetter (c : Char) : Bool :=
  ('A' ≤ c && c ≤ 'Z') || ('a' ≤ c && c ≤ 'z')

/-- Code point in the range `Ā-ɏ` (Latin Extended-A and -B),
as written in the regex character classes of both tokenizer variants. -/
def inLatinExtA (c : Char) : Bool := 0x100 ≤ c.val && c.val ≤ 0x24F

/-- Code point in the range `Ḁ-ỿ` (Latin Extended Additional),
as written in the regex character classes of both tokenizer variants. -/
def inLatinExtAdd (c : Char) : Bool := 0x1E00 ≤ c.val && c.val ≤ 0x1EFF

/-- The letter class `[A-Za-zĀ-ɏḀ-ỿ]` that heads
`WORD_RE` in both variants. -/
def wordLetter (c : Char) : Bool :=
  isAsciiLetter c || inLatinExtA c || inLatinExtAdd c

/-- Model of the regex class `\w` (Python word character: alphanumeric or
underscore), restricted to the Latin repertoire this program targets: ASCII
alphanumerics, the underscore, and the extended Latin letter ranges the
program's own regexes name.  Word characters of other scripts are outside
the modelled repertoire. -/
def pyIsWordChar (c : Char) : Bool :=
  c.isAlphanum || c = '_' || inLatinExtA c || inLatinExtAdd c

/-- Model of the regex class `\d` (decimal digit), restricted to the ASCII
digits; decimal digits of other scripts are outside the modelled
repertoire. -/
def pyIsDigit (c : Char) : Bool := c.isDigit

/-! ## Unicode normalization model (`unicodedata`)

Tables of Unicode Character Database facts for the code points this
development evaluates.  `nfdChar` is the full canonical decomposition,
`nfkdChar` the full compatibility decomposition, `combiningClass` the
canonical combining class. -/

/-- Canonical combining class (UCD `ccc`); 0 for every character not in the
table. -/
def combiningClass (c : Char) : Nat :=
  if c = '̣' then 220
  else if c = '́' || c = '̃' || c = '̄' || c = '̇' then 230
  else 0

/-- Model of `unicodedata.combining(ch) != 0`: the character is a combining
mark. -/
def isCombining (c : Char) : Bool := combiningClass c ≠ 0

/-- Full canonical decomposition (UCD) of one code point; characters with no
canonical decomposition decompose to themselves. -/
def nfdChar (c : Char) : List Char :=
  if c = 'ā' then ['a', '̄']
  else if c = 'ī' then ['i', '̄']
  else if c = 'ū' then ['u', '̄']
  else if c = 'ṛ' then ['r', '̣']
  else if c = 'ṣ' then ['s', '̣']
  else if c = 'ṇ' then ['n', '̣']
  else if c = 'ḥ' then ['h', '̣']
  else if c = 'ṭ' then ['t', '̣']
  else if c = 'ḍ' then ['d', '̣']
  else if c = 'ś' then ['s', '́']
  else if c = 'ñ' then ['n', '̃']
  else if c = 'ṅ' then ['n', '̇']
  else if c = 'ṁ' then ['m', '̇']
  else [c]

/-- Full compatibility decomposition (UCD) of one code point: the canonical
decomposition plus the compatibility mappings, here the ligature `ﬁ`
(U+FB01), which has a compatibility decomposition to `fi` but no canonical
decomposition. -/
def nfkdChar (c : Char) : List Char :=
  if c = 'ﬁ' then ['f', 'i'] else nfdChar c

/-- One pass of the canonical-ordering bubble: the carried character `x`
moves right past a following combining mark of strictly smaller nonzero
class. -/
def reorderPass (x : Char) : List Char → List Char
  | [] => [x]
  | b :: rest =>
    if combiningClass b ≠ 0 && combiningClass b < combiningClass x then
      b :: reorderPass x rest
    else
      x :: reorderPass b rest

/-- One left-to-right pass over the whole sequence. -/
def reorderOnce : List Char → List Char
  | [] => []
  | a :: rest => reorderPass a rest

/-- Canonical ordering of combining marks (the Unicode canonical-ordering
algorithm, as iterated adjacent transpositions; `length` passes reach the
fixed point). -/
def canonicalReorder (l : List Char) : List Char :=
  (List.range l.length).foldl (fun acc _ => reorderOnce acc) l

/-- Model of `unicodedata.normalize("NFD", ·)`: decompose every character
canonically, then apply canonical ordering. -/
def nfdStr (s : List Char) : List Char :=
  canonicalReorder (s.flatMap nfdChar)

/-- Model of `unicodedata.normalize("NFKD", ·)`: decompose every character
compatibly, then apply canonical ordering. -/
def nfkdStr (s : List Char) : List Char :=
  canonicalReorder (s.flatMap nfkdChar)

/-- Primary canonical composition of a pair of code points (the inverse of
the canonical decompositions tabled above). -/
def composePair (a b : Char) : Option Char :=
  if b = '̄' then
    if a = 'a' then some 'ā' else if a = 'i' then some 'ī'
    else if a = 'u' then some 'ū' else none
  else if b = '̣' then
    if a = 'r' then some 'ṛ' else if a = 's' then some 'ṣ'
    else if a = 'n' then some 'ṇ' else if a = 'h' then some 'ḥ'
    else if a = 't' then some 'ṭ' else if a = 'd' then some 'ḍ'
    else none
  else if b = '́' then
    if a = 's' then some 'ś' else none
  else if b = '̃' then
    if a = 'n' then some 'ñ' else none
  else if b = '̇' then
    if a = 'n' then some 'ṅ' else if a = 'm' then some 'ṁ' else none
  else none

/-- Canonical recomposition scan: compose the carried starter with the next
code point when the pair has a primary composite.  (Mark-blocking between
non-adjacent pairs never arises in the sequences this development
evaluates.) -/
def composeAux (a : Char) : List Char → List Char
  | [] => [a]
  | b :: rest =>
    match composePair a b with
    | some c => composeAux c rest
    | none => a :: composeAux b rest

/-- Canonical recomposition of a canonically decomposed and ordered
sequence. -/
def nfcCompose : List Char → List Char
  | [] => []
  | a :: rest => composeAux a rest

/-- Model of `unicodedata.normalize("NFC", ·)`: canonical decomposition,
canonical ordering, then canonical recomposition. -/
def nfcStr (s : List Char) : List Char := nfcCompose (nfdStr s)

/-- The repository's `normalize_text` (main file, lines 30-35; the `.venv`
variant, lines 19-20): Unicode normalization with the default form `NFC`,
the only form the repository ever passes. -/
def normalize_text (text : List Char) : List Char := nfcStr text

/-- The main file's `strip_diacritics` (lines 38-47): NFKD-decompose, drop
every combining mark, then re-normalize to NFC. -/
def strip_diacritics (text : List Char) : List Char :=
  nfcStr ((nfkdStr text).filter (fun ch => !(isCombining ch)))

/-- The `.venv` variant's `strip_diacritics` (lines 22-24): NFKD-decompose
and drop every combining mark, with no final recomposition. -/
def strip_diacritics_venv (text : List Char) : List Char :=
  (nfkdStr text).filter (fun ch => !(isCombining ch))

/-- Reference diacritic stripping as worded by the specification
(section 4.1): decompose to the canonical decomposition form (NFD), remove
every code point classified as a combining mark, then re-normalize to
composed form.  Written from the specification's words, to be compared with
the source's `strip_diacritics`. -/
def stripDiacriticsCanonicalRef (text : List Char) : List Char :=
  nfcStr ((nfdStr text).filter (fun ch => !(isCombining ch)))

/-- Character-to-character mapping table of `iast_to_simple_ascii` (main
file, lines 57-65); characters outside the table map to themselves. -/
def iastMap (c : Char) : Char :=
  if c = 'ā' then 'a' else if c = 'ī' then 'i' else if c = 'ū' then 'u'
  else if c = 'ṛ' then 'r' else if c = 'ṝ' then 'r'
  else if c = 'ḷ' then 'l' else if c = 'ḹ' then 'l'
  else if c = 'ṅ' then 'n' else if c = 'ñ' then 'n' else if c = 'ṇ' then 'n'
  else if c = 'ṣ' then 's' else if c = 'ś' then 's' else if c = 'ḥ' then 'h'
  else if c = 'ḍ' then 'd' else if c = 'ṭ' then 't' else if c = 'ṁ' then 'm'
  else if c = 'Ā' then 'A' else if c = 'Ī' then 'I' else if c = 'Ū' then 'U'
  else if c = 'Ṛ' then 'R' else if c = 'Ṝ' then 'R'
  else if c = 'Ṅ' then 'N' else if c = 'Ñ' then 'N' else if c = 'Ṇ' then 'N'
  else if c = 'Ṣ' then 'S' else if c = 'Ś' then 'S' else if c = 'Ḥ' then 'H'
  else if c = 'Ḍ' then 'D' else if c = 'Ṭ' then 'T' else if c = 'Ḷ' then 'L'
  else if c = 'Ṁ' then 'M'
  else c

/-- The main file's `iast_to_simple_ascii` (lines 50-69): map each character
through the table, leaving unmapped characters untouched. -/
def iast_to_simple_ascii (iast : List Char) : List Char := iast.map iastMap

/-- Character-to-character mapping table of the `.venv` variant's
`iast_to_ascii` (lines 27-32); it lacks the `ḍ`, `ṭ` and `ḹ` entries of the
main file's table. -/
def iastMapVenv (c : Char) : Char :=
  if c = 'ā' then 'a' else if c = 'ī' then 'i' else if c = 'ū' then 'u'
  else if c = 'ṛ' then 'r' else if c = 'ṝ' then 'r' else if c = 'ḷ' then 'l'
  else if c = 'ṅ' then 'n' else if c = 'ñ' then 'n' else if c = 'ṇ' then 'n'
  else if c = 'ṣ' then 's' else if c = 'ś' then 's' else if c = 'ḥ' then 'h'
  else if c = 'ṁ' then 'm'
  else if c = 'Ā' then 'A' else if c = 'Ī' then 'I' else if c = 'Ū' then 'U'
  else if c = 'Ṛ' then 'R' else if c = 'Ṝ' then 'R' else if c = 'Ḷ' then 'L'
  else if c = 'Ṅ' then 'N' else if c = 'Ñ' then 'N' else if c = 'Ṇ' then 'N'
  else if c = 'Ṣ' then 'S' else if c = 'Ś' then 'S' else if c = 'Ḥ' then 'H'
  else if c = 'Ṁ' then 'M'
  else c

/-- The `.venv` variant's `iast_to_ascii` (lines 26-33). -/
def iast_to_ascii (text : List Char) : List Char := text.map iastMapVenv

/-! ## Sandhi candidate generator (`simple_sandhi_splits`, main file
lines 129-173) -/

/-- The hardcoded vowel set `VOWELS` (line 129). -/
def VOWELS : List Char := "aeiouāīūṛṝḷAEIOUĀĪŪṚṜḶ".toList

/-- The hardcoded consonant set `CONSONANTS` (lines 130-131); defined by the
source but not consulted by the splitting heuristics. -/
def CONSONANTS : List Char :=
  ("bcdfghjklmnpqrstvwxyzBCDFGHJKLMNPQRSTVWXYZ" ++ "ṅñṇṣśḍṭḷḍṬṆ").toList

/-- Model of Python `str.strip()`: drop leading and trailing whitespace. -/
def pyStrip (l : List Char) : List Char :=
  ((l.dropWhile pyIsSpace).reverse.dropWhile pyIsSpace).reverse

/-- Heuristic 1 (line 154): `L[-1] in VOWELS and R[0] in VOWELS`, expressed
on the last character `lc` of `L` and the first character `rc` of `R`. -/
def heur1 (lc rc : Char) : Bool :=
  decide (lc ∈ VOWELS) && decide (rc ∈ VOWELS)

/-- Heuristic 2 (line 159): `L[-1] not in VOWELS and R[0] in VOWELS`. -/
def heur2 (lc rc : Char) : Bool :=
  !(decide (lc ∈ VOWELS)) && decide (rc ∈ VOWELS)

/-- Heuristic 3 (line 164): `L.endswith("ḥ") or L.endswith("h") and R[0] in
VOWELS`.  Python parses this as `L.endswith("ḥ") or (L.endswith("h") and
R[0] in VOWELS)`; `endswith` with a one-character argument tests the last
character, here `lc`. -/
def heur3 (lc rc : Char) : Bool :=
  decide (lc = 'ḥ') || (decide (lc = 'h') && decide (rc ∈ VOWELS))

/-- One loop iteration of `simple_sandhi_splits` (lines 149-166) on the
fragments `L`, `R` at one split index.  `L[-1]` raises `IndexError` when `L`
is empty; when `L` is nonempty, `R[0]` is always evaluated (by heuristic 1
when `L[-1]` is a vowel, else by heuristic 2) and raises when `R` is empty.
Raising is modelled as `none`; `some r` is a normal iteration producing the
candidate `r = some (L, R)` or no candidate `r = none`. -/
def sandhiCandAt (L R : List Char) : Option (Option (List Char × List Char)) :=
  match L.getLast?, R.head? with
  | some lc, some rc =>
    some (if heur1 lc rc then some (L, R)
          else if heur2 lc rc then some (L, R)
          else if heur3 lc rc then some (L, R)
          else none)
  | _, _ => none

/-- The candidate-collecting loop of `simple_sandhi_splits` over the list of
split indices, in index order; an `IndexError` at any index aborts the
call. -/
def sandhiLoop (t : List Char) : List Nat → Option (List (List Char × List Char))
  | [] => some []
  | i :: rest =>
    match sandhiCandAt (t.take i) (t.drop i) with
    | none => none
    | some none => sandhiLoop t rest
    | some (some c) =>
      match sandhiLoop t rest with
      | none => none
      | some cs => some (c :: cs)

/-- The split-index list `range(min_part_len, n - min_part_len + 1)` of
line 149, as Python `range` semantics: `max 0 (hi - lo)` consecutive values
from `lo`. -/
def sandhiIndices (min_part_len n : Nat) : List Nat :=
  List.range' min_part_len (n - min_part_len + 1 - min_part_len)

/-- The raw candidate sequence of `simple_sandhi_splits` before the final
dedup-and-sort line (lines 140-166): strip the token, return the empty list
for short tokens, else collect candidates across the split indices. -/
def simple_sandhi_splits_raw (token : List Char) (min_part_len : Nat) :
    Option (List (List Char × List Char)) :=
  let t := pyStrip token
  let n := t.length
  if n < min_part_len * 2 then some []
  else sandhiLoop t (sandhiIndices min_part_len n)

/-- The scoring function `score` (lines 169-171):
`abs(len(L) - len(R))`. -/
def score (split : List Char × List Char) : Nat :=
  Nat.dist split.1.length split.2.length

/-- Python `sorted(candidates, key=score)`: a stable sort ascending by
score. -/
def sortByScore (cands : List (List Char × List Char)) :
    List (List Char × List Char) :=
  List.insertionSort (fun a b => score a ≤ score b) cands

/-- An admissible iteration order of the Python `set` of candidates: some
enumeration of the distinct elements.  CPython's actual order depends on the
process's randomized string hashes, so the code fixes no particular
enumeration. -/
def IsSetEnum (xs ys : List (List Char × List Char)) : Prop :=
  ys.Nodup ∧ ∀ a, a ∈ ys ↔ a ∈ xs

/-- Model of line 172, `sorted(set(candidates), key=score)`, with
`List.dedup` standing in for the unspecified `set` iteration order. -/
def pySortedSet (cands : List (List Char × List Char)) :
    List (List Char × List Char) :=
  sortByScore cands.dedup

/-- The full `simple_sandhi_splits` (lines 133-173); `none` models a raised
`IndexError`. -/
def simple_sandhi_splits (token : List Char) (min_part_len : Nat) :
    Option (List (List Char × List Char)) :=
  match simple_sandhi_splits_raw token min_part_len with
  | none => none
  | some cands => some (pySortedSet cands)

example : simple_sandhi_splits "ahamasti".toList 2 =
    some [("aham".toList, "asti".toList), ("ah".toList, "amasti".toList)] := by
  decide

example : simple_sandhi_splits "a".toList 0 = none := by decide

example : simple_sandhi_splits "ab".toList 2 = some [] := by decide

/-! ## Lexical scanner (`basic_tokenize`, main file lines 74-124, and the
`.venv` variant `tokenize`, lines 41-78)

The two variants share `NUMBER_RE` and the head of `WORD_RE`; they differ in
the letter class of `WORD_RE`'s continuation group (`[-'][A-Za-zĀ-ɏḀ-ỿ]+`
in the main file, `[-'][A-Za-z]+` in the `.venv` file) and in `PUNCT_RE`
(`[^\s\wĀ-ɏḀ-ỿ]` in the main file, `[^\s\w]` in the `.venv` file).  The
loops are therefore modelled once, parametrized by the continuation letter
class and the punctuation class.  Matching a regex anchored at the cursor is
modelled as a function from the remaining input to the matched text and the
rest; for these regexes the backtracking match equals the greedy
longest-component match, because a letter or digit can never serve as a
group separator and vice versa. -/

/-- The apostrophe character, one of the two separators of `WORD_RE`'s
continuation group. -/
def apostChar : Char := Char.ofNat 39

/-- Continuation-group separator `[-']` of `WORD_RE` (both variants). -/
def wordSep (c : Char) : Bool := c = '-' || c = apostChar

/-- Fueled matcher for the continuation groups `(?:[.,]\d+)*` of
`NUMBER_RE`: repeatedly consume a separator followed by a nonempty digit
run; a trailing separator without a following digit is not consumed.
Returns the consumed text and the rest.  Each recursion step consumes at
least two characters and one unit of fuel, so fuel equal to the input
length never runs out (the zero-fuel case returns the input unconsumed,
like the no-match case). -/
def numTailF : Nat → List Char → List Char × List Char
  | fuel + 1, s :: c :: rest =>
    if (s = '.' || s = ',') && pyIsDigit c then
      let ds := (c :: rest).takeWhile pyIsDigit
      let rest2 := (c :: rest).dropWhile pyIsDigit
      let tr := numTailF fuel rest2
      (s :: (ds ++ tr.1), tr.2)
    else ([], s :: c :: rest)
  | _, l => ([], l)

/-- Model of `NUMBER_RE.match(text, i)` (`\d+(?:[.,]\d+)*`, line 24 of the
main file and line 38 of the `.venv` file): `none` when no match starts at
the cursor, else the matched text and the rest. -/
def NUMBER_RE_match (l : List Char) : Option (List Char × List Char) :=
  let ds := l.takeWhile pyIsDigit
  if ds.isEmpty then none
  else
    let tr := numTailF l.length (l.dropWhile pyIsDigit)
    some (ds ++ tr.1, tr.2)

/-- Fueled matcher for the continuation groups `(?:[-']tail+)*` of
`WORD_RE`, parametrized by the continuation letter class `tl` (the two
variants differ here).  Same fuel discipline as `numTailF`. -/
def wordTailF (tl : Char → Bool) : Nat → List Char → List Char × List Char
  | fuel + 1, s :: c :: rest =>
    if wordSep s && tl c then
      let ds := (c :: rest).takeWhile tl
      let rest2 := (c :: rest).dropWhile tl
      let tr := wordTailF tl fuel rest2
      (s :: (ds ++ tr.1), tr.2)
    else ([], s :: c :: rest)
  | _, l => ([], l)

/-- Model of `WORD_RE.match(text, i)` with continuation letter class `tl`:
a nonempty run of `wordLetter` characters followed by the continuation
groups. -/
def WORD_RE_match (tl : Char → Bool) (l : List Char) :
    Option (List Char × List Char) :=
  let ds := l.takeWhile wordLetter
  if ds.isEmpty then none
  else
    let tr := wordTailF tl l.length (l.dropWhile wordLetter)
    some (ds ++ tr.1, tr.2)

/-- The main file's `PUNCT_RE` class `[^\s\wĀ-ɏḀ-ỿ]` (line 25), as a
single-character test. -/
def PUNCT_RE_class (c : Char) : Bool :=
  !pyIsSpace c && !pyIsWordChar c && !inLatinExtA c && !inLatinExtAdd c

/-- The `.venv` file's `PUNCT_RE` class `[^\s\w]` (line 39). -/
def PUNCT_RE_venv_class (c : Char) : Bool :=
  !pyIsSpace c && !pyIsWordChar c

/-- The scanner loop shared by `basic_tokenize` (main file lines 92-124)
and `tokenize` (`.venv` lines 50-78), parametrized by the continuation
letter class `tl` and the punctuation class `p`: skip one whitespace
character, else emit the number match, else the word match, else one
punctuation character, else one fallback character.  Fuel decreases by one
per iteration and every iteration consumes at least one character, so fuel
equal to the input length never runs out (proved below as the scanner
progress property). -/
def tokenizeF (tl p : Char → Bool) : Nat → List Char → List (List Char)
  | _, [] => []
  | 0, _ :: _ => []
  | fuel + 1, c :: rest =>
    if pyIsSpace c then tokenizeF tl p fuel rest
    else match NUMBER_RE_match (c :: rest) with
    | some (tok, r) => tok :: tokenizeF tl p fuel r
    | none =>
      match WORD_RE_match tl (c :: rest) with
      | some (tok, r) => tok :: tokenizeF tl p fuel r
      | none =>
        if p c then [c] :: tokenizeF tl p fuel rest
        else [c] :: tokenizeF tl p fuel rest

/-- The same loop instrumented to also record what each iteration consumed:
a piece is `(true, run)` for a skipped whitespace character and
`(false, token)` for an emitted token.  Used to state losslessness and
progress of the scanner. -/
def scanPiecesF (tl p : Char → Bool) : Nat → List Char → List (Bool × List Char)
  | _, [] => []
  | 0, _ :: _ => []
  | fuel + 1, c :: rest =>
    if pyIsSpace c then (true, [c]) :: scanPiecesF tl p fuel rest
    else match NUMBER_RE_match (c :: rest) with
    | some (tok, r) => (false, tok) :: scanPiecesF tl p fuel r
    | none =>
      match WORD_RE_match tl (c :: rest) with
      | some (tok, r) => (false, tok) :: scanPiecesF tl p fuel r
      | none =>
        if p c then (false, [c]) :: scanPiecesF tl p fuel rest
        else (false, [c]) :: scanPiecesF tl p fuel rest

/-- The pieces the main scanner consumes on a buffer. -/
def scanPieces (tl p : Char → Bool) (cs : List Char) : List (Bool × List Char) :=
  scanPiecesF tl p cs.length cs

/-- The normalization prelude of `basic_tokenize` (lines 83-90): optional
NFC normalization, optional diacritic stripping, optional ASCII mapping, in
that order. -/
def basicPrelude (text : List Char) (normalize strip_diac iast_ascii : Bool) :
    List Char :=
  let t1 := if normalize then normalize_text text else text
  let t2 := if strip_diac then strip_diacritics t1 else t1
  if iast_ascii then iast_to_simple_ascii t2 else t2

/-- The main file's `basic_tokenize` (lines 74-124). -/
def basic_tokenize (text : List Char) (normalize strip_diac iast_ascii : Bool) :
    List (List Char) :=
  let t := basicPrelude text normalize strip_diac iast_ascii
  tokenizeF wordLetter PUNCT_RE_class t.length t

/-- The `.venv` file's `tokenize` (lines 41-78): unconditional NFC
normalization, optional `.venv` diacritic stripping, optional `.venv` ASCII
mapping, then the scan with the `.venv` pattern classes. -/
def tokenize (text : List Char) (strip_diac ascii_map : Bool) : List (List Char) :=
  let t1 := normalize_text text
  let t2 := if strip_diac then strip_diacritics_venv t1 else t1
  let t3 := if ascii_map then iast_to_ascii t2 else t2
  tokenizeF isAsciiLetter PUNCT_RE_venv_class t3.length t3

example : basic_tokenize "aham vande .".toList false false false =
    ["aham".toList, "vande".toList, [Char.ofNat 46]] := by decide

example : basic_tokenize "3.14 and 1,234 guys".toList false false false =
    ["3.14".toList, "and".toList, "1,234".toList, "guys".toList] := by decide

example : basic_tokenize "a-ā".toList false false false = ["a-ā".toList] := by
  decide

example : tokenize "a-ā".toList false false =
    [['a'], ['-'], ['ā']] := by decide

/-! ## Pipeline (`pipeline_tokenize`, main file lines 178-205) -/

/-- Model of `re.fullmatch(WORD_RE, t)` (line 196) as a Boolean: the main
variant's word pattern matches the whole token.  For this pattern the
greedy match is the unique maximal match, so a full match exists exactly
when the greedy match leaves no rest. -/
def wordFullmatch (t : List Char) : Bool :=
  match WORD_RE_match wordLetter t with
  | some (_, r) => r.isEmpty
  | none => false

/-- One iteration of the expansion loop of `pipeline_tokenize`
(lines 195-203): a token that fully matches the word pattern and has at
least one sandhi candidate is replaced by the two fragments of the first
candidate; any other token is kept.  `none` models a raised exception
propagating out of `simple_sandhi_splits` (which cannot happen at the
default `min_part_len = 2`, as proved below). -/
def sandhiExpandTok (t : List Char) : Option (List (List Char)) :=
  if wordFullmatch t then
    match simple_sandhi_splits t 2 with
    | none => none
    | some [] => some [t]
    | some ((left, right) :: _) => some [left, right]
  else some [t]

/-- The expansion loop over the token list, aborting at the first raised
exception. -/
def expandLoop : List (List Char) → Option (List (List Char))
  | [] => some []
  | t :: ts =>
    match sandhiExpandTok t, expandLoop ts with
    | some e, some out => some (e ++ out)
    | _, _ => none

/-- The main file's `pipeline_tokenize` (lines 178-205). -/
def pipeline_tokenize (text : List Char)
    (normalize strip_diacritics_flag iast_ascii_flag sandhi_split : Bool) :
    Option (List (List Char)) :=
  let toks := basic_tokenize text normalize strip_diacritics_flag iast_ascii_flag
  if sandhi_split then expandLoop toks else some toks

/-- The pure per-token expansion the pipeline performs (used to state the
pipeline claim): the first sandhi candidate's fragments for a fully-matching
word token with candidates, the token itself otherwise. -/
def sandhiExpandPure (t : List Char) : List (List Char) :=
  if wordFullmatch t then
    match simple_sandhi_splits t 2 with
    | some ((left, right) :: _) => [left, right]
    | _ => [t]
  else [t]

example : pipeline_tokenize "ahamasti .".toList false false false true =
    some ["aham".toList, "asti".toList, [Char.ofNat 46]] := by decide

/-! ## Matcher soundness -/

theorem numTailF_append (fuel : Nat) :
    ∀ l : List Char, (numTailF fuel l).1 ++ (numTailF fuel l).2 = l := by
  induction fuel with
  | zero => intro l; cases l <;> simp [numTailF]
  | succ fuel ih =>
    intro l
    match l with
    | [] => simp [numTailF]
    | [a] => simp [numTailF]
    | s :: c :: rest =>
      by_cases h : ((s = '.' || s = ',') && pyIsDigit c) = true
      · have hsplit := List.takeWhile_append_dropWhile pyIsDigit (c :: rest)
        simp only [numTailF, h, if_true]
        simp only [List.cons_append, List.append_assoc, ih]
        rw [hsplit]
      · simp [numTailF, h]

theorem NUMBER_RE_match_sound {l t r : List Char}
    (h : NUMBER_RE_match l = some (t, r)) : t ++ r = l ∧ t ≠ [] := by
  unfold NUMBER_RE_match at h
  by_cases hds : (l.takeWhile pyIsDigit).isEmpty
  · simp [hds] at h
  · simp only [hds, if_false, Option.some.injEq, Prod.mk.injEq] at h
    obtain ⟨ht, hr⟩ := h
    constructor
    · rw [List.append_assoc, numTailF_append, List.takeWhile_append_dropWhile]
    · intro habs
      rcases List.append_eq_nil.mp habs with ⟨h1, _⟩
      rw [h1] at hds
      simp at hds

theorem wordTailF_append (tl : Char → Bool) (fuel : Nat) :
    ∀ l : List Char, (wordTailF tl fuel l).1 ++ (wordTailF tl fuel l).2 = l := by
  induction fuel with
  | zero => intro l; cases l <;> simp [wordTailF]
  | succ fuel ih =>
    intro l
    match l with
    | [] => simp [wordTailF]
    | [a] => simp [wordTailF]
    | s :: c :: rest =>
      by_cases h : (wordSep s && tl c) = true
      · have hsplit := List.takeWhile_append_dropWhile tl (c :: rest)
        simp only [wordTailF, h, if_true]
        simp only [List.cons_append, List.append_assoc, ih]
        rw [hsplit]
      · simp [wordTailF, h]

theorem WORD_RE_match_sound {tl : Char → Bool} {l t r : List Char}
    (h : WORD_RE_match tl l = some (t, r)) : t ++ r = l ∧ t ≠ [] := by
  unfold WORD_RE_match at h
  by_cases hds : (l.takeWhile wordLetter).isEmpty
  · simp [hds] at h
  · simp only [hds, if_false, Option.some.injEq, Prod.mk.injEq] at h
    obtain ⟨ht, hr⟩ := h
    constructor
    · rw [List.append_assoc, wordTailF_append, List.takeWhile_append_dropWhile]
    · intro habs
      rcases List.append_eq_nil.mp habs with ⟨h1, _⟩
      rw [h1] at hds
      simp at hds

theorem NUMBER_RE_match_rest_lt {l t r : List Char}
    (h : NUMBER_RE_match l = some (t, r)) : r.length < l.length := by
  obtain ⟨happ, hne⟩ := NUMBER_RE_match_sound h
  have := congrArg List.length happ
  simp only [List.length_append] at this
  have ht : 0 < t.length := List.length_pos.mpr hne
  omega

theorem WORD_RE_match_rest_lt {tl : Char → Bool} {l t r : List Char}
    (h : WORD_RE_match tl l = some (t, r)) : r.length < l.length := by
  obtain ⟨happ, hne⟩ := WORD_RE_match_sound h
  have := congrArg List.length happ
  simp only [List.length_append] at this
  have ht : 0 < t.length := List.length_pos.mpr hne
  omega

/-! ## Scanner structure lemmas -/

theorem scanPiecesF_flatten (tl p : Char → Bool) :
    ∀ (fuel : Nat) (cs : List Char), cs.length ≤ fuel →
      ((scanPiecesF tl p fuel cs).map Prod.snd).flatten = cs := by
  intro fuel
  induction fuel with
  | zero =>
    intro cs hle
    have hnil : cs = [] := List.eq_nil_of_length_eq_zero (Nat.le_zero.mp hle)
    subst hnil
    simp [scanPiecesF]
  | succ fuel ih =>
    intro cs hle
    match cs with
    | [] => simp [scanPiecesF]
    | c :: rest =>
      have hlen : rest.length ≤ fuel := by
        simp only [List.length_cons] at hle; omega
      by_cases hsp : pyIsSpace c
      · simp only [scanPiecesF, hsp, if_true, List.map_cons, List.flatten_cons,
          ih rest hlen]
        rfl
      · rcases hnum : NUMBER_RE_match (c :: rest) with _ | ⟨tok, r⟩
        · rcases hword : WORD_RE_match tl (c :: rest) with _ | ⟨tok, r⟩
          · by_cases hp : p c <;>
              simp only [scanPiecesF, hsp, hnum, hword, hp, if_true, if_false,
                Bool.false_eq_true, List.map_cons, List.flatten_cons,
                ih rest hlen] <;> rfl
          · obtain ⟨happ, -⟩ := WORD_RE_match_sound hword
            have hr : r.length ≤ fuel := by
              have := WORD_RE_match_rest_lt hword
              simp only [List.length_cons] at this; omega
            simp only [scanPiecesF, hsp, hnum, hword, Bool.false_eq_true,
              if_false, List.map_cons, List.flatten_cons, ih r hr]
            exact happ
        · obtain ⟨happ, -⟩ := NUMBER_RE_match_sound hnum
          have hr : r.length ≤ fuel := by
            have := NUMBER_RE_match_rest_lt hnum
            simp only [List.length_cons] at this; omega
          simp only [scanPiecesF, hsp, hnum, Bool.false_eq_true, if_false,
            List.map_cons, List.flatten_cons, ih r hr]
          exact happ

theorem tokenizeF_eq_filter (tl p : Char → Bool) :
    ∀ (fuel : Nat) (cs : List Char),
      tokenizeF tl p fuel cs =
        ((scanPiecesF tl p fuel cs).filter (fun x => !x.1)).map Prod.snd := by
  intro fuel
  induction fuel with
  | zero => intro cs; cases cs <;> simp [tokenizeF, scanPiecesF]
  | succ fuel ih =>
    intro cs
    match cs with
    | [] => simp [tokenizeF, scanPiecesF]
    | c :: rest =>
      by_cases hsp : pyIsSpace c
      · simp [tokenizeF, scanPiecesF, hsp, ih]
      · rcases hnum : NUMBER_RE_match (c :: rest) with _ | ⟨tok, r⟩
        · rcases hword : WORD_RE_match tl (c :: rest) with _ | ⟨tok, r⟩
          · by_cases hp : p c <;>
              simp [tokenizeF, scanPiecesF, hsp, hnum, hword, hp, ih]
          · simp [tokenizeF, scanPiecesF, hsp, hnum, hword, ih]
        · simp [tokenizeF, scanPiecesF, hsp, hnum, ih]

theorem scanPiecesF_pieces (tl p : Char → Bool) :
    ∀ (fuel : Nat) (cs : List Char) (pc : Bool × List Char),
      pc ∈ scanPiecesF tl p fuel cs →
        pc.2 ≠ [] ∧ (pc.1 = true → pc.2.all pyIsSpace = true) := by
  intro fuel
  induction fuel with
  | zero => intro cs pc hpc; cases cs <;> simp [scanPiecesF] at hpc
  | succ fuel ih =>
    intro cs pc hpc
    match cs with
    | [] => simp [scanPiecesF] at hpc
    | c :: rest =>
      by_cases hsp : pyIsSpace c
      · simp only [scanPiecesF, hsp, if_true, List.mem_cons] at hpc
        rcases hpc with rfl | hpc
        · exact ⟨by simp, fun _ => by simp [hsp]⟩
        · exact ih rest pc hpc
      · rcases hnum : NUMBER_RE_match (c :: rest) with _ | ⟨tok, r⟩
        · rcases hword : WORD_RE_match tl (c :: rest) with _ | ⟨tok, r⟩
          · by_cases hp : p c <;>
            · simp only [scanPiecesF, hsp, hnum, hword, hp, if_true, if_false,
                Bool.false_eq_true, List.mem_cons] at hpc
              rcases hpc with rfl | hpc
              · exact ⟨by simp, by simp⟩
              · exact ih rest pc hpc
          · simp only [scanPiecesF, hsp, hnum, hword, Bool.false_eq_true,
              if_false, List.mem_cons] at hpc
            rcases hpc with rfl | hpc
            · exact ⟨(WORD_RE_match_sound hword).2, by simp⟩
            · exact ih r pc hpc
        · simp only [scanPiecesF, hsp, hnum, Bool.false_eq_true, if_false,
            List.mem_cons] at hpc
          rcases hpc with rfl | hpc
          · exact ⟨(NUMBER_RE_match_sound hnum).2, by simp⟩
          · exact ih r pc hpc

/-! ## Variant comparison lemmas -/

theorem wordTailF_no_sep (tl : Char → Bool) (fuel : Nat) :
    ∀ l : List Char, (∀ c ∈ l, wordSep c = false) →
      wordTailF tl fuel l = ([], l) := by
  induction fuel with
  | zero => intro l _; cases l <;> simp [wordTailF]
  | succ fuel _ =>
    intro l hsep
    match l with
    | [] => simp [wordTailF]
    | [a] => simp [wordTailF]
    | s :: c :: rest =>
      have hs : wordSep s = false := hsep s (by simp)
      simp [wordTailF, hs]

theorem WORD_RE_match_tail_eq (tl1 tl2 : Char → Bool) {l : List Char}
    (hsep : ∀ c ∈ l, wordSep c = false) :
    WORD_RE_match tl1 l = WORD_RE_match tl2 l := by
  unfold WORD_RE_match
  by_cases hds : (l.takeWhile wordLetter).isEmpty
  · simp [hds]
  · have hsub : ∀ c ∈ l.dropWhile wordLetter, wordSep c = false := by
      intro c hc
      exact hsep c ((List.dropWhile_sublist wordLetter).subset hc)
    simp only [hds, if_false,
      wordTailF_no_sep tl1 l.length _ hsub,
      wordTailF_no_sep tl2 l.length _ hsub]

theorem tokenizeF_variants :
    ∀ (fuel : Nat) (cs : List Char), (∀ c ∈ cs, wordSep c = false) →
      tokenizeF wordLetter PUNCT_RE_class fuel cs =
        tokenizeF isAsciiLetter PUNCT_RE_venv_class fuel cs := by
  intro fuel
  induction fuel with
  | zero => intro cs _; cases cs <;> simp [tokenizeF]
  | succ fuel ih =>
    intro cs hsep
    match cs with
    | [] => simp [tokenizeF]
    | c :: rest =>
      have hrest : ∀ x ∈ rest, wordSep x = false := by
        intro x hx; exact hsep x (by simp [hx])
      by_cases hsp : pyIsSpace c
      · simp only [tokenizeF, hsp, if_true]
        exact ih rest hrest
      · rcases hnum : NUMBER_RE_match (c :: rest) with _ | ⟨tok, r⟩
        · have hword := WORD_RE_match_tail_eq wordLetter isAsciiLetter hsep
          rcases hw : WORD_RE_match wordLetter (c :: rest) with _ | ⟨tok, r⟩
          · rw [hw] at hword
            simp only [tokenizeF, hsp, hnum, hw, ← hword, Bool.false_eq_true,
              if_false, ite_self]
            exact congrArg (List.cons [c]) (ih rest hrest)
          · rw [hw] at hword
            obtain ⟨happ, -⟩ := WORD_RE_match_sound hw
            have hrsub : ∀ x ∈ r, wordSep x = false := by
              intro x hx
              exact hsep x (happ ▸ List.mem_append_right tok hx)
            simp only [tokenizeF, hsp, hnum, hw, ← hword, Bool.false_eq_true,
              if_false]
            exact congrArg (List.cons tok) (ih r hrsub)
        · obtain ⟨happ, -⟩ := NUMBER_RE_match_sound hnum
          have hrsub : ∀ x ∈ r, wordSep x = false := by
            intro x hx
            exact hsep x (happ ▸ List.mem_append_right tok hx)
          simp only [tokenizeF, hsp, hnum]
          exact congrArg (List.cons tok) (ih r hrsub)

/-! ## Sandhi generator lemmas -/

theorem sandhiCandAt_of_ne {L R : List Char} (hL : L ≠ []) (hR : R ≠ []) :
    ∃ res, sandhiCandAt L R = some res := by
  obtain ⟨lc, hlc⟩ := Option.isSome_iff_exists.mp (List.getLast?_isSome.mpr hL)
  obtain ⟨rc, hrc⟩ := Option.isSome_iff_exists.mp (List.head?_isSome.mpr hR)
  refine ⟨if heur1 lc rc then some (L, R) else if heur2 lc rc then some (L, R)
    else if heur3 lc rc then some (L, R) else none, ?_⟩
  unfold sandhiCandAt
  rw [hlc, hrc]

theorem sandhiCandAt_some_eq {L R : List Char} {cand : List Char × List Char}
    (h : sandhiCandAt L R = some (some cand)) : cand = (L, R) := by
  unfold sandhiCandAt at h
  cases hl : L.getLast? with
  | none =>
    simp only [hl] at h
    exact Option.noConfusion h
  | some lc =>
    cases hr : R.head? with
    | none =>
      simp only [hl, hr] at h
      exact Option.noConfusion h
    | some rc =>
      simp only [hl, hr, Option.some.injEq] at h
      split_ifs at h <;> simp_all

theorem sandhiLoop_total (t : List Char) :
    ∀ idxs : List Nat, (∀ i ∈ idxs, 1 ≤ i ∧ i < t.length) →
      ∃ cs, sandhiLoop t idxs = some cs := by
  intro idxs
  induction idxs with
  | nil => exact fun _ => ⟨[], rfl⟩
  | cons i rest ih =>
    intro h
    obtain ⟨h1, h2⟩ := h i (by simp)
    have hL : t.take i ≠ [] := by
      apply List.ne_nil_of_length_pos
      rw [List.length_take]
      omega
    have hR : t.drop i ≠ [] := by
      apply List.ne_nil_of_length_pos
      rw [List.length_drop]
      omega
    obtain ⟨res, hres⟩ := sandhiCandAt_of_ne hL hR
    obtain ⟨cs, hcs⟩ := ih (fun j hj => h j (by simp [hj]))
    cases res with
    | none => exact ⟨cs, by simp [sandhiLoop, hres, hcs]⟩
    | some c => exact ⟨c :: cs, by simp [sandhiLoop, hres, hcs]⟩

theorem sandhiLoop_mem (t : List Char) :
    ∀ (idxs : List Nat) (cs : List (List Char × List Char)),
      sandhiLoop t idxs = some cs →
        ∀ c ∈ cs, ∃ i ∈ idxs, c = (t.take i, t.drop i) := by
  intro idxs
  induction idxs with
  | nil =>
    intro cs h c hc
    simp only [sandhiLoop, Option.some.injEq] at h
    subst h
    simp at hc
  | cons i rest ih =>
    intro cs h c hc
    unfold sandhiLoop at h
    cases hca : sandhiCandAt (t.take i) (t.drop i) with
    | none => rw [hca] at h; exact absurd h (by simp)
    | some res =>
      rw [hca] at h
      cases res with
      | none =>
        obtain ⟨j, hj, hcj⟩ := ih cs h c hc
        exact ⟨j, by simp [hj], hcj⟩
      | some cand =>
        cases hrest : sandhiLoop t rest with
        | none => rw [hrest] at h; exact absurd h (by simp)
        | some cs2 =>
          rw [hrest] at h
          simp only [Option.some.injEq] at h
          subst h
          rcases List.mem_cons.mp hc with rfl | hc2
          · exact ⟨i, by simp, sandhiCandAt_some_eq hca⟩
          · obtain ⟨j, hj, hcj⟩ := ih cs2 hrest c hc2
            exact ⟨j, by simp [hj], hcj⟩

theorem mem_pySortedSet {c : List Char × List Char}
    {xs : List (List Char × List Char)} : c ∈ pySortedSet xs ↔ c ∈ xs := by
  unfold pySortedSet sortByScore
  rw [(List.perm_insertionSort _ _).mem_iff, List.mem_dedup]

theorem pyStrip_length_le (l : List Char) : (pyStrip l).length ≤ l.length := by
  unfold pyStrip
  have h1 := (List.dropWhile_sublist (l := l) pyIsSpace).length_le
  have h2 := (List.dropWhile_sublist
    (l := (l.dropWhile pyIsSpace).reverse) pyIsSpace).length_le
  simp only [List.length_reverse] at h1 h2 ⊢
  omega

theorem sandhiIndices_bounds {m n i : Nat} (hm : 1 ≤ m) (hn : ¬ n < m * 2)
    (hi : i ∈ sandhiIndices m n) : m ≤ i ∧ i ≤ n - m := by
  unfold sandhiIndices at hi
  rw [List.mem_range'] at hi
  obtain ⟨k, hk, rfl⟩ := hi
  omega

theorem simple_sandhi_splits_total (token : List Char) (m : Nat) (hm : 1 ≤ m) :
    ∃ cs, simple_sandhi_splits token m = some cs := by
  unfold simple_sandhi_splits simple_sandhi_splits_raw
  by_cases hn : (pyStrip token).length < m * 2
  · refine ⟨[], by simp only [hn, if_true]; rfl⟩
  · have hb : ∀ i ∈ sandhiIndices m (pyStrip token).length,
        1 ≤ i ∧ i < (pyStrip token).length := by
      intro i hi
      obtain ⟨hi1, hi2⟩ := sandhiIndices_bounds hm hn hi
      omega
    obtain ⟨cs, hcs⟩ := sandhiLoop_total (pyStrip token) _ hb
    exact ⟨pySortedSet cs, by simp [hn, hcs]⟩

theorem sandhi_raw_mem {token : List Char} {m : Nat}
    {cands : List (List Char × List Char)} (hm : 1 ≤ m)
    (h : simple_sandhi_splits_raw token m = some cands) :
    ∀ c ∈ cands,
      c.1 ++ c.2 = pyStrip token ∧ m ≤ c.1.length ∧ m ≤ c.2.length := by
  unfold simple_sandhi_splits_raw at h
  by_cases hn : (pyStrip token).length < m * 2
  · simp only [hn, if_true, Option.some.injEq] at h
    subst h
    simp
  · simp only [hn, if_false] at h
    intro c hc
    obtain ⟨i, hi, rfl⟩ := sandhiLoop_mem _ _ _ h c hc
    obtain ⟨hi1, hi2⟩ := sandhiIndices_bounds hm hn hi
    refine ⟨List.take_append_drop i _, ?_, ?_⟩
    · simp only [List.length_take]
      omega
    · simp only [List.length_drop]
      omega

/-! ## Pipeline lemmas -/

theorem sandhiExpandTok_eq (t : List Char) :
    sandhiExpandTok t = some (sandhiExpandPure t) := by
  unfold sandhiExpandTok sandhiExpandPure
  by_cases hw : wordFullmatch t
  · simp only [hw, if_true]
    obtain ⟨cs, hcs⟩ := simple_sandhi_splits_total t 2 (by omega)
    rw [hcs]
    cases cs with
    | nil => rfl
    | cons c rest => cases c; rfl
  · simp [hw]

theorem expandLoop_eq (ts : List (List Char)) :
    expandLoop ts = some (ts.flatMap sandhiExpandPure) := by
  induction ts with
  | nil => rfl
  | cons t ts ih => simp [expandLoop, sandhiExpandTok_eq, ih]

/-! ## Unicode model lemmas -/

theorem flatMap_congr_chars {s : List Char} {f g : Char → List Char}
    (h : ∀ c ∈ s, f c = g c) : s.flatMap f = s.flatMap g := by
  induction s with
  | nil => rfl
  | cons c cs ih =>
    simp only [List.flatMap_cons, h c (by simp)]
    rw [ih (fun x hx => h x (by simp [hx]))]

instance : IsTotal (List Char × List Char) (fun a b => score a ≤ score b) :=
  ⟨fun _ _ => Nat.le_total _ _⟩

instance : IsTrans (List Char × List Char) (fun a b => score a ≤ score b) :=
  ⟨fun _ _ _ => Nat.le_trans⟩

/-! ## Claim theorems -/

/-- C1, counterexample: at `minPartLen = 0` the generator is not total: the
guard `n < min_part_len * 2` passes for every token, the split-index range
starts at 0, and `L[-1]` raises `IndexError` on the empty left fragment
(modelled as `none`). -/
theorem claim_C1_counterexample : simple_sandhi_splits ['a'] 0 = none := by
  decide

/-- C1 (amended): for every Unicode string token and every `minPartLen ≥ 1`
the sandhi candidate generator terminates normally and returns a (possibly
empty) sequence — it never raises.  (Purity and non-mutation hold by
construction: the model is a function of its arguments.)  At
`minPartLen = 0` the code raises `IndexError` instead, see the
counterexample. -/
theorem claim_C1 (token : List Char) (minPartLen : Nat) (h : 1 ≤ minPartLen) :
    ∃ cands, simple_sandhi_splits token minPartLen = some cands :=
  simple_sandhi_splits_total token minPartLen h

/-- C1 witness at a concrete input. -/
theorem claim_C1_witness :
    1 ≤ 2 ∧ ∃ cands, simple_sandhi_splits "ab".toList 2 = some cands :=
  ⟨by decide, claim_C1 "ab".toList 2 (by decide)⟩

/-- C2, counterexample: the generator strips the token before splitting
(line 140), so for a token with leading whitespace the fragments concatenate
to the stripped token, not to the token itself: on `" aa"` with
`minPartLen = 1` the only candidate is `("a", "a")` and `"a" + "a" ≠ " aa"`. -/
theorem claim_C2_counterexample :
    simple_sandhi_splits " aa".toList 1 = some [(['a'], ['a'])] ∧
    ['a'] ++ ['a'] ≠ " aa".toList := by decide

/-- C2 (amended): for every token `t` and every `minPartLen ≥ 1`, every
candidate `(L, R)` satisfies `L ++ R = t.strip()` (equal to `t` whenever `t`
carries no leading or trailing whitespace), `len(L) ≥ minPartLen`,
`len(R) ≥ minPartLen`, both fragments nonempty; and the generator returns
the empty sequence whenever `len(t) < 2 * minPartLen`. -/
theorem claim_C2 (token : List Char) (minPartLen : Nat)
    (cands : List (List Char × List Char)) (hm : 1 ≤ minPartLen)
    (h : simple_sandhi_splits token minPartLen = some cands) :
    (∀ c ∈ cands, c.1 ++ c.2 = pyStrip token ∧ minPartLen ≤ c.1.length ∧
      minPartLen ≤ c.2.length ∧ c.1 ≠ [] ∧ c.2 ≠ []) ∧
    (token.length < 2 * minPartLen → cands = []) := by
  unfold simple_sandhi_splits at h
  cases hraw : simple_sandhi_splits_raw token minPartLen with
  | none => rw [hraw] at h; exact absurd h (by simp)
  | some rcands =>
    rw [hraw] at h
    simp only [Option.some.injEq] at h
    subst h
    constructor
    · intro c hc
      obtain ⟨happ, h1, h2⟩ := sandhi_raw_mem hm hraw c (mem_pySortedSet.mp hc)
      refine ⟨happ, h1, h2, ?_, ?_⟩
      · exact List.ne_nil_of_length_pos (by omega)
      · exact List.ne_nil_of_length_pos (by omega)
    · intro hshort
      have hlt : (pyStrip token).length < minPartLen * 2 := by
        have := pyStrip_length_le token
        omega
      unfold simple_sandhi_splits_raw at hraw
      simp only [hlt, if_true, Option.some.injEq] at hraw
      rw [← hraw]
      rfl

/-- C2 witness at a concrete input. -/
theorem claim_C2_witness :
    1 ≤ 1 ∧
    simple_sandhi_splits "aaaa".toList 1 =
      some [("aa".toList, "aa".toList), (['a'], "aaa".toList),
        ("aaa".toList, ['a'])] ∧
    ((∀ c ∈ [("aa".toList, "aa".toList), (['a'], "aaa".toList),
        ("aaa".toList, ['a'])],
      c.1 ++ c.2 = pyStrip "aaaa".toList ∧ 1 ≤ c.1.length ∧
      1 ≤ c.2.length ∧ c.1 ≠ [] ∧ c.2 ≠ []) ∧
    ("aaaa".toList.length < 2 * 1 →
      [("aa".toList, "aa".toList), (['a'], "aaa".toList),
        ("aaa".toList, ['a'])] = [])) :=
  ⟨by decide, by decide, claim_C2 "aaaa".toList 1 _ (by decide) (by decide)⟩

/-- C3, counterexample: the final line `sorted(set(candidates), key=score)`
sorts whatever enumeration the Python `set` yields, and set iteration order
for tuples of strings depends on the process's randomized string hashes, so
no split-index tie-break is guaranteed.  For token `"aaaa"` with
`minPartLen = 1` the raw index-ordered candidates are
`[("a","aaa"), ("aa","aa"), ("aaa","a")]`; the reversed enumeration is an
admissible set order, and the stable sort of it places the tied candidate
from split index 3 before the tied candidate from split index 1, violating
the claimed smaller-split-index-first tie order. -/
theorem claim_C3_counterexample :
    simple_sandhi_splits_raw "aaaa".toList 1 =
      some [(['a'], "aaa".toList), ("aa".toList, "aa".toList),
        ("aaa".toList, ['a'])] ∧
    IsSetEnum
      [(['a'], "aaa".toList), ("aa".toList, "aa".toList), ("aaa".toList, ['a'])]
      [("aaa".toList, ['a']), ("aa".toList, "aa".toList), (['a'], "aaa".toList)] ∧
    sortByScore
      [("aaa".toList, ['a']), ("aa".toList, "aa".toList), (['a'], "aaa".toList)] =
      [("aa".toList, "aa".toList), ("aaa".toList, ['a']), (['a'], "aaa".toList)] ∧
    score ("aaa".toList, ['a']) = score (['a'], "aaa".toList) ∧
    [("aa".toList, "aa".toList), ("aaa".toList, ['a']), (['a'], "aaa".toList)] ≠
      [("aa".toList, "aa".toList), (['a'], "aaa".toList), ("aaa".toList, ['a'])] := by
  refine ⟨by decide, ⟨by decide, ?_⟩, by decide, by decide, by decide⟩
  intro a
  constructor <;> (intro h; simp only [List.mem_cons, List.not_mem_nil,
    or_false] at h ⊢; tauto)

/-- C3 (amended): the returned candidate sequence is deduplicated and sorted
ascending by `|len(L) - len(R)|`, and it enumerates exactly the candidates
the index loop produced; this holds for every admissible iteration order of
the Python `set` (`List.dedup` being one such order, used by the model of
the published function).  The relative order of candidates with equal score
follows the unspecified set iteration order, so the smaller-split-index
tie-break of the original claim is not guaranteed; within a fixed hash
seed the function is deterministic. -/
theorem claim_C3 (token : List Char) (minPartLen : Nat)
    (raw ys : List (List Char × List Char))
    (hraw : simple_sandhi_splits_raw token minPartLen = some raw)
    (hys : IsSetEnum raw ys) :
    simple_sandhi_splits token minPartLen = some (sortByScore raw.dedup) ∧
    IsSetEnum raw raw.dedup ∧
    (sortByScore ys).Sorted (fun a b => score a ≤ score b) ∧
    (sortByScore ys).Nodup ∧
    (∀ c, c ∈ sortByScore ys ↔ c ∈ raw) := by
  refine ⟨?_, ⟨List.nodup_dedup raw, fun a => List.mem_dedup⟩, ?_, ?_, ?_⟩
  · unfold simple_sandhi_splits
    rw [hraw]
    rfl
  · exact List.sorted_insertionSort _ _
  · exact (List.perm_insertionSort _ _).nodup_iff.mpr hys.1
  · intro c
    unfold sortByScore
    rw [(List.perm_insertionSort _ _).mem_iff]
    exact hys.2 c

/-- C3 witness at a concrete input. -/
theorem claim_C3_witness :
    simple_sandhi_splits_raw "aaaa".toList 1 =
      some [(['a'], "aaa".toList), ("aa".toList, "aa".toList),
        ("aaa".toList, ['a'])] ∧
    IsSetEnum
      [(['a'], "aaa".toList), ("aa".toList, "aa".toList), ("aaa".toList, ['a'])]
      [(['a'], "aaa".toList), ("aa".toList, "aa".toList), ("aaa".toList, ['a'])] ∧
    (simple_sandhi_splits "aaaa".toList 1 =
      some (sortByScore
        [(['a'], "aaa".toList), ("aa".toList, "aa".toList),
          ("aaa".toList, ['a'])].dedup) ∧
    IsSetEnum
      [(['a'], "aaa".toList), ("aa".toList, "aa".toList), ("aaa".toList, ['a'])]
      [(['a'], "aaa".toList), ("aa".toList, "aa".toList),
        ("aaa".toList, ['a'])].dedup ∧
    (sortByScore
      [(['a'], "aaa".toList), ("aa".toList, "aa".toList),
        ("aaa".toList, ['a'])]).Sorted (fun a b => score a ≤ score b) ∧
    (sortByScore
      [(['a'], "aaa".toList), ("aa".toList, "aa".toList),
        ("aaa".toList, ['a'])]).Nodup ∧
    (∀ c, c ∈ sortByScore
        [(['a'], "aaa".toList), ("aa".toList, "aa".toList),
          ("aaa".toList, ['a'])] ↔
      c ∈ [(['a'], "aaa".toList), ("aa".toList, "aa".toList),
        ("aaa".toList, ['a'])])) :=
  ⟨by decide, ⟨by decide, fun a => Iff.rfl⟩,
    claim_C3 "aaaa".toList 1 _ _ (by decide) ⟨by decide, fun a => Iff.rfl⟩⟩

/-- C4: losslessness of the scanner.  On the buffer the scanner actually
scans (the input after the optional normalization steps), the consumed
pieces concatenate back to the whole buffer, the emitted tokens are exactly
the non-whitespace pieces in order, and every skipped piece consists of
whitespace only. -/
theorem claim_C4 (text : List Char) (normalize strip_diac iast_ascii : Bool) :
    ((scanPieces wordLetter PUNCT_RE_class
        (basicPrelude text normalize strip_diac iast_ascii)).map
      Prod.snd).flatten = basicPrelude text normalize strip_diac iast_ascii ∧
    basic_tokenize text normalize strip_diac iast_ascii =
      ((scanPieces wordLetter PUNCT_RE_class
        (basicPrelude text normalize strip_diac iast_ascii)).filter
          (fun x => !x.1)).map Prod.snd ∧
    ∀ pc ∈ scanPieces wordLetter PUNCT_RE_class
        (basicPrelude text normalize strip_diac iast_ascii),
      pc.1 = true → pc.2.all pyIsSpace = true := by
  refine ⟨scanPiecesF_flatten _ _ _ _ le_rfl, tokenizeF_eq_filter _ _ _ _, ?_⟩
  intro pc hpc htrue
  exact (scanPiecesF_pieces _ _ _ _ pc hpc).2 htrue

/-- C8: scanner progress and termination.  Every piece the scanner's loop
consumes (whitespace skip, any pattern match, or the single-character
fallback) is nonempty — each iteration advances the cursor by at least one
code point — and the pieces cover the whole input, so no position is ever
revisited and the scan of a finite input ends. -/
theorem claim_C8 (cs : List Char) :
    (∀ pc ∈ scanPieces wordLetter PUNCT_RE_class cs, pc.2 ≠ []) ∧
    ((scanPieces wordLetter PUNCT_RE_class cs).map Prod.snd).flatten = cs :=
  ⟨fun pc hpc => (scanPiecesF_pieces _ _ _ _ pc hpc).1,
    scanPiecesF_flatten _ _ _ _ le_rfl⟩

/-- C9: at a split index whose fragments are nonempty (last character of
`L` is `lc`, first character of `R` is `rc`), the loop body produces a
candidate exactly when `R` starts with a vowel or `L` ends with the visarga
character, and the third (visarga) heuristic is the firing one exactly when
`L` ends with the visarga and `R` starts with a non-vowel: every vowel-onset
index is already taken by the first two heuristics, and the `L.endswith("h")`
disjunct of the third requires a vowel onset, so it never fires. -/
theorem claim_C9 (L R : List Char) (lc rc : Char)
    (hl : L.getLast? = some lc) (hr : R.head? = some rc) :
    (sandhiCandAt L R = some (some (L, R)) ↔ (rc ∈ VOWELS ∨ lc = 'ḥ')) ∧
    ((heur1 lc rc = false ∧ heur2 lc rc = false ∧ heur3 lc rc = true) ↔
      (lc = 'ḥ' ∧ rc ∉ VOWELS)) := by
  unfold sandhiCandAt heur1 heur2 heur3
  rw [hl, hr]
  by_cases hrv : rc ∈ VOWELS
  · by_cases hlv : lc ∈ VOWELS
    · simp [hrv, hlv]
    · simp [hrv, hlv]
  · by_cases hlh : lc = 'ḥ'
    · subst hlh
      have hnv : ¬ ('ḥ' ∈ VOWELS) := by decide
      simp [hrv, hnv]
    · simp [hrv, hlh]

/-- C9 witness at a concrete split. -/
theorem claim_C9_witness :
    "ah".toList.getLast? = some 'h' ∧ "am".toList.head? = some 'a' ∧
    ((sandhiCandAt "ah".toList "am".toList =
        some (some ("ah".toList, "am".toList)) ↔
      ('a' ∈ VOWELS ∨ 'h' = 'ḥ')) ∧
    ((heur1 'h' 'a' = false ∧ heur2 'h' 'a' = false ∧ heur3 'h' 'a' = true) ↔
      ('h' = 'ḥ' ∧ 'a' ∉ VOWELS))) :=
  ⟨by decide, by decide, claim_C9 _ _ _ _ (by decide) (by decide)⟩

/-- C6: with `sandhi_split` enabled the pipeline raises nothing and returns
the scanner tokens expanded in place and in order: each token is replaced by
the two fragments of the first (best-ranked) candidate when it fully
matches the word pattern and has at least one candidate at the default
`minPartLen = 2`, and is kept unchanged otherwise (word tokens with no
candidates, numbers, punctuation and fallback characters). -/
theorem claim_C6 (text : List Char) (normalize strip_diac iast_ascii : Bool) :
    pipeline_tokenize text normalize strip_diac iast_ascii true =
      some ((basic_tokenize text normalize strip_diac iast_ascii).flatMap
        sandhiExpandPure) ∧
    (∀ t left right rest, wordFullmatch t = true →
      simple_sandhi_splits t 2 = some ((left, right) :: rest) →
      sandhiExpandPure t = [left, right]) ∧
    (∀ t, wordFullmatch t = false → sandhiExpandPure t = [t]) ∧
    (∀ t, simple_sandhi_splits t 2 = some [] → sandhiExpandPure t = [t]) := by
  refine ⟨?_, ?_, ?_, ?_⟩
  · unfold pipeline_tokenize
    exact expandLoop_eq _
  · intro t left right rest hw hs
    simp [sandhiExpandPure, hw, hs]
  · intro t hw
    simp [sandhiExpandPure, hw]
  · intro t hs
    by_cases hw : wordFullmatch t <;> simp [sandhiExpandPure, hw, hs]

/-- C7, counterexample: the two variants' scanners also differ through the
word rule, not only the punctuation rule.  On `"a-ā"` every character is
classified identically by the two punctuation classes (so the punctuation
rule's differing ranges are not exercised), yet the scanners disagree: the
main variant's word rule accepts extended Latin letters after a hyphen and
scans one token `"a-ā"`, while the `.venv` variant's continuation group is
ASCII-only and scans `"a"`, `"-"`, `"ā"`. -/
theorem claim_C7_counterexample :
    (∀ c ∈ ['a', '-', 'ā'], PUNCT_RE_class c = PUNCT_RE_venv_class c) ∧
    basic_tokenize ['a', '-', 'ā'] true false false ≠
      tokenize ['a', '-', 'ā'] false false := by
  constructor
  · decide
  · decide

/-- C7 (amended): the two variants' scanners differ through the word rule's
continuation group as well as the punctuation rule's ranges; on every scan
buffer containing neither a hyphen nor an apostrophe (so the differing
continuation groups cannot engage), the two scanners produce the same token
sequence, and with corresponding flags (`normalize=True`, stripping and
ASCII mapping off) the two published tokenizers agree on any input text
whose normalized form has no hyphen or apostrophe. -/
theorem claim_C7 (text cs : List Char)
    (hcs : ∀ c ∈ cs, wordSep c = false)
    (htext : ∀ c ∈ normalize_text text, wordSep c = false) :
    tokenizeF wordLetter PUNCT_RE_class cs.length cs =
      tokenizeF isAsciiLetter PUNCT_RE_venv_class cs.length cs ∧
    basic_tokenize text true false false = tokenize text false false := by
  refine ⟨tokenizeF_variants _ _ hcs, ?_⟩
  unfold basic_tokenize tokenize basicPrelude
  exact tokenizeF_variants _ _ htext

/-- C7 witness at a concrete input. -/
theorem claim_C7_witness :
    (∀ c ∈ "ab".toList, wordSep c = false) ∧
    (∀ c ∈ normalize_text "ab".toList, wordSep c = false) ∧
    (tokenizeF wordLetter PUNCT_RE_class "ab".toList.length "ab".toList =
      tokenizeF isAsciiLetter PUNCT_RE_venv_class "ab".toList.length
        "ab".toList ∧
    basic_tokenize "ab".toList true false false =
      tokenize "ab".toList false false) :=
  ⟨by decide, by decide, claim_C7 "ab".toList "ab".toList (by decide) (by decide)⟩

/-- C5, counterexample: `strip_diacritics` decomposes with NFKD
(compatibility decomposition), not the canonical decomposition the
specification describes: on the ligature `ﬁ` (U+FB01, no combining marks,
no canonical decomposition, compatibility decomposition `fi`) the code
returns `"fi"` while the canonical-decomposition reference returns `"ﬁ"`
unchanged. -/
theorem claim_C5_counterexample :
    strip_diacritics ['ﬁ'] = ['f', 'i'] ∧
    stripDiacriticsCanonicalRef ['ﬁ'] = ['ﬁ'] ∧
    strip_diacritics ['ﬁ'] ≠ stripDiacriticsCanonicalRef ['ﬁ'] := by
  refine ⟨by decide, by decide, by decide⟩

/-- C5 (amended): `strip_diacritics` equals the reference definition with
compatibility (NFKD) decomposition in place of canonical decomposition; it
agrees with the specification's canonical-decomposition reference exactly on
strings all of whose characters have identical canonical and compatibility
decompositions (which covers the IAST diacritic letters). -/
theorem claim_C5 (s : List Char) (h : ∀ c ∈ s, nfkdChar c = nfdChar c) :
    strip_diacritics s = stripDiacriticsCanonicalRef s := by
  unfold strip_diacritics stripDiacriticsCanonicalRef nfkdStr nfdStr
  rw [flatMap_congr_chars h]

/-- C5 witness at a concrete input. -/
theorem claim_C5_witness :
    (∀ c ∈ "kṛṣṇa".toList, nfkdChar c = nfdChar c) ∧
    strip_diacritics "kṛṣṇa".toList =
      stripDiacriticsCanonicalRef "kṛṣṇa".toList :=
  ⟨by decide, claim_C5 "kṛṣṇa".toList (by decide)⟩

/-- C10: `strip_diacritics` applies compatibility (NFKD) decomposition, so
it is not the identity on all diacritic-free text: the ligature `ﬁ`
(U+FB01) contains no combining mark, yet its image is `"fi"`, different
from the input. -/
theorem claim_C10 :
    (∀ c ∈ ['ﬁ'], isCombining c = false) ∧
    strip_diacritics ['ﬁ'] = ['f', 'i'] ∧
    strip_diacritics ['ﬁ'] ≠ ['ﬁ'] := by
  refine ⟨by decide, by decide, by decide⟩
